import Mathlib

/-!
Small-Shell (`smallsh.c`): a verification development.

A shallow embedding of the job-control core of `src/smallsh.c` and theorems
about it.

Conventions of the embedding

* A C string is the list of its characters before the terminating NUL.
* `pid_t` values are `Int`; the sentinel `-1` marks an empty slot of the
  background table and an absent foreground handle, exactly as in the source.
* The array `processes[MAX_BG_PROCESSES]` is a `List Int`; slot `i` of the
  array is element `i` of the list, and every `for (i = 0; i < MAX_BG_PROCESSES; i++)`
  loop of the source is a recursion that visits the slots in increasing index.
* System calls are not executed: their observable effects are recorded as a
  list of `Event`s in program order, and what the kernel answers (the value
  returned by `fork`, `waitpid`, the contents of a block returned by
  `malloc`) is a parameter of the embedded function.
-/

set_option autoImplicit false

namespace SmallShell

/-! ## Constants and data model -/

/-- The constant `MAX_BG_PROCESSES` of the source: the number of slots. -/
def MAX_BG_PROCESSES : Nat := 512

/-- The constant `MAX_ARGS` of the source. -/
def MAX_ARGS : Nat := 512

/-- What `waitpid` stores in `wstatus`, as seen through the `<sys/wait.h>`
macros: `WIFEXITED` with `WEXITSTATUS = code`, `WIFSIGNALED` with
`WTERMSIG = sig`, or neither (a stopped or continued child). -/
inductive WStatus where
  | exited (code : Nat)
  | signaled (sig : Nat)
  | other
  deriving DecidableEq, Repr

/-- Observable actions of the interpreter, in the order the source performs them. -/
inductive Event where
  /-- The call `printf("background pid is %d\n", pid)`. -/
  | printBackgroundPid (pid : Int)
  /-- The call `printf("background pid %d is done: exit value %d\n", pid, WEXITSTATUS(wstatus))`. -/
  | printDone (pid : Int) (wstatus : WStatus)
  /-- The call `fprintf(stderr, "terminated by signal %d\n", WTERMSIG(wstatus))`. -/
  | printTerminated (sig : Nat)
  /-- The call `perror("fork failed")`. -/
  | perrorFork
  /-- The call `kill(pid, SIGTERM)`. -/
  | killTerm (pid : Int)
  /-- The call `waitpid(pid, &wstatus, 0)`: a blocking wait for `pid`. -/
  | waitBlocking (pid : Int)
  /-- The call `waitpid(pid, &wstatus, WNOHANG)`: a non-blocking completion check. -/
  | waitNoHang (pid : Int)
  /-- The call `exit(status)`. -/
  | exitProcess (status : Int)
  deriving DecidableEq, Repr

/-- The process-wide state of the source: `fgOnly`, `processes`, `fgpid`. -/
structure Shell where
  fgOnly : Bool
  processes : List Int
  fgpid : Int
  deriving DecidableEq, Repr

/-! ## Background job table -/

/-- Function `initprocesses`: every one of the `MAX_BG_PROCESSES` slots becomes `-1`. -/
def initprocesses : List Int := List.replicate MAX_BG_PROCESSES (-1)

/-- Function `addbg`: scan the slots from index 0; the first slot equal to `-1` receives
`pid` and the function returns `0`; if the scan ends, it returns `-1`.
The result is the returned value and the table afterwards. -/
def addbg (pid : Int) : List Int → Int × List Int
  | [] => (-1, [])
  | p :: ps =>
    if p = -1 then (0, pid :: ps)
    else ((addbg pid ps).1, p :: (addbg pid ps).2)

/-- The loop of `reap` from slot `i` on. `waitpidNoHang j` is what the call
`waitpid(processes[j], &wstatus, WNOHANG)` made for slot `j` returns: the
returned value and the stored status. The call is made only for a slot that is
not `-1`; when it returns a positive `pid`, the completion notice is printed
with that `pid` and the slot is set to `-1`. -/
def reapFrom (waitpidNoHang : Nat → Int × WStatus) : Nat → List Int → List Event × List Int
  | _, [] => ([], [])
  | i, p :: ps =>
    if p ≠ -1 then
      if 0 < (waitpidNoHang i).1 then
        (Event.waitNoHang p :: Event.printDone (waitpidNoHang i).1 (waitpidNoHang i).2
            :: (reapFrom waitpidNoHang (i + 1) ps).1,
          -1 :: (reapFrom waitpidNoHang (i + 1) ps).2)
      else
        (Event.waitNoHang p :: (reapFrom waitpidNoHang (i + 1) ps).1,
          p :: (reapFrom waitpidNoHang (i + 1) ps).2)
    else ((reapFrom waitpidNoHang (i + 1) ps).1, p :: (reapFrom waitpidNoHang (i + 1) ps).2)

/-- Function `reap`: the loop over all slots, from slot 0. -/
def reap (waitpidNoHang : Nat → Int × WStatus) (processes : List Int) : List Event × List Int :=
  reapFrom waitpidNoHang 0 processes

/-- The loop of `exitShell` over the table: every slot that is not `-1` is sent
`SIGTERM`, waited for (blocking) and set to `-1`. -/
def drain : List Int → List Event × List Int
  | [] => ([], [])
  | p :: ps =>
    if p ≠ -1 then (Event.killTerm p :: Event.waitBlocking p :: (drain ps).1, -1 :: (drain ps).2)
    else ((drain ps).1, p :: (drain ps).2)

/-- Function `exitShell`: the foreground child, if `fgpid` is not `-1`, is signalled and
waited for and `fgpid` reset; the table is drained; the process exits with
`exitStatus`, which is `0`. A blocking `waitpid` is taken to return. -/
def exitShell (s : Shell) : List Event × Shell :=
  let fg : List Event × Int :=
    if s.fgpid ≠ -1 then ([Event.killTerm s.fgpid, Event.waitBlocking s.fgpid], -1)
    else ([], s.fgpid)
  (fg.1 ++ (drain s.processes).1 ++ [Event.exitProcess 0],
    { s with fgpid := fg.2, processes := (drain s.processes).2 })

/-- The PIDs held by the occupied slots, in slot order. -/
def occupied (processes : List Int) : List Int := processes.filter (fun p => p ≠ -1)

/-- No PID occupies more than one slot. -/
def NoDupPids (processes : List Int) : Prop := (occupied processes).Nodup

instance (processes : List Int) : Decidable (NoDupPids processes) := by
  unfold NoDupPids; infer_instance

/-! ## Command descriptor and parsing -/

/-- A C string: its characters before the terminating NUL. -/
abbrev CStr := List Char

/-- The descriptor `Command`. `args` holds the entries of the array `args`
before its first `NULL` entry. In the source `name` and `args[0]` are one
pointer at the moment `populateCommand` stores them, and `name` is never
assigned again; the embedding records in `name` the text that pointer had when
it was stored. -/
structure Command where
  name : Option CStr
  args : List CStr
  input_file : Option CStr
  output_file : Option CStr
  background : Bool
  deriving DecidableEq, Repr

/-- The tokens that successive calls of `strtok(…, " ")` return: the maximal
runs of characters other than the space, left to right. `cur` is the run being
read. -/
def tokensAux (cur : CStr) : List Char → List CStr
  | [] => if cur = [] then [] else [cur]
  | c :: cs =>
    if c = ' ' then
      if cur = [] then tokensAux [] cs else cur :: tokensAux [] cs
    else tokensAux (cur ++ [c]) cs

/-- All tokens of a line, in order. -/
def tokens (commandLine : List Char) : List CStr := tokensAux [] commandLine

/-- The `while ((token = strtok(NULL, " ")) != NULL)` loop of `populateCommand`
over the tokens that follow the command word: the token after `<` becomes
`input_file`, the token after `>` becomes `output_file` (nothing is stored when
no token follows), every other token is appended to `args`. -/
def parseArgs : List CStr → Command → Command
  | [], cmd => cmd
  | t :: ts, cmd =>
    if t = ['<'] then
      match ts with
      | [] => cmd
      | f :: ts2 => parseArgs ts2 { cmd with input_file := some f }
    else if t = ['>'] then
      match ts with
      | [] => cmd
      | f :: ts2 => parseArgs ts2 { cmd with output_file := some f }
    else parseArgs ts { cmd with args := cmd.args ++ [t] }

/-- Function `populateCommand`. `cmd` is the descriptor as the previous iteration left
it (the source resets `name`, `input_file`, `output_file`, `background` and, on
the two early returns, leaves `args` as it was). -/
def populateCommand (cmd : Command) (commandLine : List Char) : Command :=
  let cmd0 : Command :=
    { cmd with name := none, input_file := none, output_file := none, background := false }
  if commandLine.head? = some '#' then cmd0
  else
    match tokens commandLine with
    | [] => cmd0
    | t :: ts =>
      let c := parseArgs ts { cmd0 with name := some t, args := [t] }
      if c.args.getLast? = some ['&'] then
        { c with background := true, args := c.args.dropLast }
      else c

/-! ## C string functions on memory blocks -/

/-- The NUL character. -/
def NUL : Char := Char.ofNat 0

/-- Result of running code that can leave the defined behaviour of C. -/
inductive Run (α : Type) where
  | done (a : α)
  | undefinedBehaviour
  | outOfFuel
  deriving DecidableEq, Repr

/-- The contents of the blocks `malloc` hands out: `heap a i` is byte `i` of
the `a`-th block at the moment it is returned. -/
abbrev Heap := Nat → Nat → Char

/-- A block of `size` bytes as returned by the `a`-th call of `malloc`. -/
def malloc (heap : Heap) (a size : Nat) : List Char := (List.range size).map (heap a)

/-- A heap whose blocks are all zero bytes. -/
def zeroHeap : Heap := fun _ _ => NUL

/-- Offset of the first NUL in a block (`strlen`); `none` when the block holds
no NUL, so that the scan leaves the block. -/
def strlen : List Char → Option Nat
  | [] => none
  | c :: cs => if c = NUL then some 0 else (strlen cs).map (fun n => n + 1)

/-- The string a block holds: its bytes before the first NUL. -/
def cstr (block : List Char) : CStr := block.takeWhile (fun c => c ≠ NUL)

/-- Whether `needle` is at the start of `s`. -/
def startsWith : CStr → CStr → Bool
  | _, [] => true
  | [], _ :: _ => false
  | c :: cs, n :: ns => c = n && startsWith cs ns

/-- Offset of the first occurrence of `needle` in `s` (`strstr`), `none` for `NULL`. -/
def strstr (needle : CStr) : CStr → Option Nat
  | [] => if needle = [] then some 0 else none
  | c :: cs =>
    if startsWith (c :: cs) needle then some 0
    else (strstr needle cs).map (fun n => n + 1)

/-- Function `strncpy(dest, src, n)`: exactly `n` bytes of `dest` are written, the first
`n` characters of `src`, padded with NUL when `src` is shorter; no NUL is added
when `src` has `n` or more characters. `none` when `n` exceeds the block. -/
def strncpy (dest : List Char) (src : CStr) (n : Nat) : Option (List Char) :=
  if n ≤ dest.length then
    some ((src ++ List.replicate (n - src.length) NUL).take n ++ dest.drop n)
  else none

/-- Function `strcat(dest, src)`: `src` and a NUL are written from the first NUL of
`dest` on. `none` when `dest` holds no NUL or the write leaves the block. -/
def strcat (dest : List Char) (src : CStr) : Option (List Char) :=
  match strlen dest with
  | none => none
  | some j =>
    if j + src.length + 1 ≤ dest.length then
      some (dest.take j ++ src ++ NUL :: dest.drop (j + src.length + 1))
    else none

/-! ## Token expander -/

/-- The inner `while ((pos = strstr(args[curArg], "$$")) != NULL)` loop of
`expandPID` for one argument. `a` counts the blocks obtained from `malloc` so
far, `fuel` bounds the number of loop tests. The body allocates
`newLen + 1` bytes, copies the `pos` bytes before the match with `strncpy`,
then appends `pid` and the text after the match with `strcat`, and stores the
block as the new argument. -/
def expandArg (pid : CStr) (heap : Heap) : Nat → Nat → CStr → Run (CStr × Nat)
  | 0, _, _ => Run.outOfFuel
  | fuel + 1, a, arg =>
    match strstr ['$', '$'] arg with
    | none => Run.done (arg, a)
    | some pos =>
      let newLen := arg.length + pid.length - 2
      let newStr := malloc heap a (newLen + 1)
      match strncpy newStr arg pos with
      | none => Run.undefinedBehaviour
      | some b1 =>
        match strcat b1 pid with
        | none => Run.undefinedBehaviour
        | some b2 =>
          match strcat b2 (arg.drop (pos + 2)) with
          | none => Run.undefinedBehaviour
          | some b3 => expandArg pid heap fuel (a + 1) (cstr b3)

/-- The outer `while (curArg < MAX_ARGS && cmd->args[curArg] != NULL)` loop of
`expandPID`, from index `curArg` on. -/
def expandArgs (pid : CStr) (heap : Heap) (fuel : Nat) : Nat → Nat → List CStr → Run (List CStr × Nat)
  | _, a, [] => Run.done ([], a)
  | curArg, a, arg :: rest =>
    if curArg < MAX_ARGS then
      match expandArg pid heap fuel a arg with
      | Run.done (s, a2) =>
        match expandArgs pid heap fuel (curArg + 1) a2 rest with
        | Run.done (ss, a3) => Run.done (s :: ss, a3)
        | Run.undefinedBehaviour => Run.undefinedBehaviour
        | Run.outOfFuel => Run.outOfFuel
      | Run.undefinedBehaviour => Run.undefinedBehaviour
      | Run.outOfFuel => Run.outOfFuel
    else Run.done (arg :: rest, a)

/-- Function `expandPID`. `getpid` is the interpreter's PID; `sprintf(pid, "%d", …)`
writes its decimal digits and a NUL into `char pid[10]`. Only the entries of
`args` are assigned; `name` is not. -/
def expandPID (getpid : Nat) (heap : Heap) (fuel : Nat) (cmd : Command) : Run Command :=
  let pid := Nat.toDigits 10 getpid
  if pid.length + 1 ≤ 10 then
    match expandArgs pid heap fuel 0 0 cmd.args with
    | Run.done (args, _) => Run.done { cmd with args := args }
    | Run.undefinedBehaviour => Run.undefinedBehaviour
    | Run.outOfFuel => Run.outOfFuel
  else Run.undefinedBehaviour

/-- The text that results from replacing, left to right, every non-overlapping
occurrence of `$$` in a string by `pid`. -/
def replaceDollars (pid : CStr) : CStr → CStr
  | [] => []
  | [c] => [c]
  | c :: d :: rest =>
    if c = '$' ∧ d = '$' then pid ++ replaceDollars pid rest
    else c :: replaceDollars pid (d :: rest)

/-! ## Process launcher and the `status` built-in -/

/-- Function `execCMD` as the original process runs it. `pid` is what `fork` returned
to it: `-1` on failure, otherwise the PID of the child. `wstatus` is what the
blocking `waitpid` stores when the foreground branch is taken. The result is
the returned `int`, the actions performed, and the state afterwards. (With
`pid = 0` the code is running in the child, which replaces its image or exits
with status 1 and has no part in this state; that branch is recorded as
returning `1` with no action.) -/
def execCMD (cmd : Command) (pid : Int) (wstatus : WStatus) (s : Shell) : Int × List Event × Shell :=
  if pid = -1 then (1, [Event.perrorFork], s)
  else if pid = 0 then (1, [], s)
  else if cmd.background && !s.fgOnly then
    (0, [Event.printBackgroundPid pid], { s with processes := (addbg pid s.processes).2 })
  else
    match wstatus with
    | WStatus.exited code => (code, [Event.waitBlocking pid], { s with fgpid := -1 })
    | WStatus.signaled sig =>
      (sig, [Event.waitBlocking pid, Event.printTerminated sig], { s with fgpid := -1 })
    | WStatus.other => (0, [Event.waitBlocking pid], { s with fgpid := -1 })

/-- The two lines the `status` built-in can print. -/
inductive StatusLine where
  /-- The line `terminated by signal %d`. -/
  | terminatedBySignal (n : Int)
  /-- The line `exit value %d`. -/
  | exitValue (n : Int)
  deriving DecidableEq, Repr

/-- The `status` branch of `shell`, applied to the variable `exitStatus`. -/
def statusBuiltin (exitStatus : Int) : StatusLine :=
  if exitStatus ≠ 0 ∧ exitStatus ≠ 1 then StatusLine.terminatedBySignal exitStatus
  else StatusLine.exitValue exitStatus


/-! ## Definitions used to state the claims -/

/-- A table whose 512 slots hold the PIDs 1 to 512. -/
def fullTable : List Int := (List.range MAX_BG_PROCESSES).map (fun n : Nat => Int.ofNat (n + 1))

/-- A table whose slot 0 holds `pid` and whose other 511 slots are empty. -/
def oneJob (pid : Int) : List Int := pid :: List.replicate (MAX_BG_PROCESSES - 1) (-1)

/-- The descriptor of `sleep 5 &`. -/
def sleepBackground : Command :=
  { name := some ['s', 'l', 'e', 'e', 'p'],
    args := [['s', 'l', 'e', 'e', 'p'], ['5']],
    input_file := none, output_file := none, background := true }

/-- The descriptor of `sleep 5`. -/
def sleepForeground : Command :=
  { name := some ['s', 'l', 'e', 'e', 'p'],
    args := [['s', 'l', 'e', 'e', 'p'], ['5']],
    input_file := none, output_file := none, background := false }

/-- A descriptor with every field unset. -/
def freshCommand : Command :=
  { name := none, args := [], input_file := none, output_file := none, background := false }

/-- The tokens after the command word that are neither a redirection operator
(`<`, `>`) nor the token that follows one, in their original order. -/
def nonRedirection : List CStr → List CStr
  | [] => []
  | t :: ts =>
    if t = ['<'] ∨ t = ['>'] then
      match ts with
      | [] => []
      | _ :: ts2 => nonRedirection ts2
    else t :: nonRedirection ts

/-- The line made of `n` copies of the word `w`, each followed by one space. -/
def repeatWord (w : CStr) : Nat → List Char
  | 0 => []
  | n + 1 => w ++ ' ' :: repeatWord w n

/-- A heap whose blocks start with the byte `Z` followed by zero bytes, as a
block that was used before and is handed out again can. -/
def recycledHeap : Heap := fun _ i => if i = 0 then 'Z' else NUL

/-! ## Lemmas on the job table -/

theorem addbg_fst (pid : Int) (t : List Int) :
    (addbg pid t).1 = if (-1 : Int) ∈ t then 0 else -1 := by
  induction t with
  | nil => simp [addbg]
  | cons p ps ih =>
    by_cases hp : p = -1
    · simp [addbg, hp]
    · have hne : ¬ (-1 : Int) = p := fun h => hp h.symm
      simp [addbg, hp, ih, hne]

theorem addbg_full (pid : Int) (t : List Int) (h : (-1 : Int) ∉ t) : (addbg pid t).2 = t := by
  induction t with
  | nil => simp [addbg]
  | cons p ps ih =>
    have hp : p ≠ -1 := fun e => h (by simp [e])
    have hps : (-1 : Int) ∉ ps := fun e => h (by simp [e])
    simp [addbg, hp, ih hps]

theorem addbg_length (pid : Int) (t : List Int) : (addbg pid t).2.length = t.length := by
  induction t with
  | nil => simp [addbg]
  | cons p ps ih =>
    by_cases hp : p = -1
    · simp [addbg, hp]
    · simp [addbg, hp, ih]

theorem addbg_lowest_empty (pid : Int) (t : List Int) (h : (-1 : Int) ∈ t) :
    ∃ i, t[i]? = some (-1) ∧ (∀ j, j < i → t[j]? ≠ some (-1)) ∧ (addbg pid t).2 = t.set i pid := by
  induction t with
  | nil => simp at h
  | cons p ps ih =>
    by_cases hp : p = -1
    · refine ⟨0, by simp [hp], by simp, by simp [addbg, hp]⟩
    · have hps : (-1 : Int) ∈ ps := by
        rcases List.mem_cons.1 h with e | e
        · exact absurd e.symm hp
        · exact e
      obtain ⟨i, h1, h2, h3⟩ := ih hps
      refine ⟨i + 1, by simpa using h1, ?_, by simp [addbg, hp, h3]⟩
      intro j hj
      cases j with
      | zero => simpa using hp
      | succ j => simpa using h2 j (by omega)

theorem addbg_neg_one (t : List Int) : (addbg (-1) t).2 = t := by
  induction t with
  | nil => simp [addbg]
  | cons p ps ih =>
    by_cases hp : p = -1
    · simp [addbg, hp]
    · simp [addbg, hp, ih]

theorem occupied_addbg_perm (pid : Int) (t : List Int) (h : (-1 : Int) ∈ t) (hpid : pid ≠ -1) :
    (occupied (addbg pid t).2).Perm (pid :: occupied t) := by
  induction t with
  | nil => simp at h
  | cons p ps ih =>
    by_cases hp : p = -1
    · simp [addbg, hp, occupied, hpid]
    · have hps : (-1 : Int) ∈ ps := by
        rcases List.mem_cons.1 h with e | e
        · exact absurd e.symm hp
        · exact e
      have := ih hps
      simp only [occupied] at this ⊢
      simp only [addbg, hp, if_false, List.filter_cons, ne_eq, not_false_eq_true, decide_True, if_true]
      exact (List.Perm.cons p this).trans (List.Perm.swap pid p _)

theorem addbg_nodup_iff (pid : Int) (t : List Int) (h : NoDupPids t) :
    NoDupPids (addbg pid t).2 ↔ (pid ∉ occupied t ∨ (-1 : Int) ∉ t) := by
  by_cases hfull : (-1 : Int) ∈ t
  · by_cases hpid : pid = -1
    · subst hpid
      rw [addbg_neg_one]
      simp [h, occupied]
    · unfold NoDupPids at *
      rw [(occupied_addbg_perm pid t hfull hpid).nodup_iff, List.nodup_cons]
      simp [h, hfull]
  · rw [addbg_full pid t hfull]
    simp [h, hfull]

theorem occupied_reapFrom_sublist (w : Nat → Int × WStatus) (i : Nat) (t : List Int) :
    (occupied (reapFrom w i t).2).Sublist (occupied t) := by
  induction t generalizing i with
  | nil => simp [reapFrom]
  | cons p ps ih =>
    have := ih (i + 1)
    simp only [occupied] at this ⊢
    by_cases h1 : p = -1
    · simpa [reapFrom, h1] using this
    · by_cases h2 : 0 < (w i).1
      · simpa [reapFrom, h1, h2] using this.trans (List.sublist_cons_self p _)
      · simpa [reapFrom, h1, h2] using this

theorem drain_table (t : List Int) : (drain t).2 = List.replicate t.length (-1) := by
  induction t with
  | nil => simp [drain]
  | cons p ps ih =>
    simp only [drain]
    split_ifs with h
    · simp [ih, List.replicate_succ]
    · have : p = -1 := by simpa using h
      simp [ih, List.replicate_succ, this]

theorem occupied_replicate (n : Nat) : occupied (List.replicate n (-1)) = [] := by
  simp [occupied]

theorem fullTable_no_empty : (-1 : Int) ∉ fullTable := by
  intro h
  obtain ⟨n, _, hn⟩ := List.mem_map.1 h
  have hn2 : Int.ofNat (n + 1) = -1 := hn
  simp at hn2
  omega

theorem occupied_oneJob (pid : Int) (h : pid ≠ -1) : occupied (oneJob pid) = [pid] := by
  simp [oneJob, occupied, List.filter_cons, h]

theorem oneJob_eq (pid : Int) : oneJob pid = pid :: -1 :: List.replicate 510 (-1) := rfl

theorem addbg_second_slot (pid q : Int) (rest : List Int) (hq : q ≠ -1) :
    addbg pid (q :: -1 :: rest) = (0, q :: pid :: rest) := by
  simp [addbg, hq]

theorem empty_mem_oneJob (pid : Int) : (-1 : Int) ∈ oneJob pid := by
  rw [oneJob_eq]
  exact List.mem_cons_of_mem _ (List.mem_cons_self _ _)

/-! ## Claims on the background job table -/

/-- C7: `addbg` returns its success value `0` exactly when some slot is empty
(holds `-1`); on success the PID is written into the lowest-indexed empty slot
and no other slot changes; otherwise (every slot occupied) it returns the
failure value `-1` and the table is what it was. -/
theorem addbg_first_empty_slot (pid : Int) (t : List Int) :
    ((addbg pid t).1 = 0 ↔ (-1 : Int) ∈ t) ∧
    ((addbg pid t).1 = 0 →
      ∃ i : Nat, t[i]? = some (-1) ∧ (∀ j, j < i → t[j]? ≠ some (-1)) ∧ (addbg pid t).2 = t.set i pid) ∧
    ((addbg pid t).1 ≠ 0 →
      (addbg pid t).1 = -1 ∧ (∀ p, p ∈ t → p ≠ -1) ∧ (addbg pid t).2 = t) := by
  have hfst := addbg_fst pid t
  by_cases h : (-1 : Int) ∈ t
  · rw [if_pos h] at hfst
    refine ⟨by simp [hfst, h], fun _ => addbg_lowest_empty pid t h, fun hne => absurd hfst hne⟩
  · rw [if_neg h] at hfst
    refine ⟨by simp [hfst, h], fun h0 => by rw [hfst] at h0; exact absurd h0 (by decide), fun _ => ?_⟩
    exact ⟨hfst, fun p hp e => h (e ▸ hp), addbg_full pid t h⟩

/-- Instance of C7 on a table of 512 slots with one job, PID 4242, in slot 0:
registering PID 4243 succeeds and fills slot 1. -/
theorem addbg_first_empty_slot_witness :
    (addbg 4243 (oneJob 4242)).1 = 0 ∧
      ∃ i : Nat, (oneJob 4242)[i]? = some (-1) ∧ (∀ j, j < i → (oneJob 4242)[j]? ≠ some (-1)) ∧
        (addbg 4243 (oneJob 4242)).2 = (oneJob 4242).set i 4243 :=
  have h0 : (addbg 4243 (oneJob 4242)).1 = 0 :=
    (addbg_first_empty_slot 4243 (oneJob 4242)).1.2 (empty_mem_oneJob 4242)
  ⟨h0, (addbg_first_empty_slot 4243 (oneJob 4242)).2.1 h0⟩

/-- C5 (as amended): the table has no PID in two slots after `initprocesses`;
from a table with that property, `addbg` gives a table with it exactly when the
PID passed is not already in an occupied slot or no slot is empty; `reap`, the
drain loop and `exitShell` always give a table with it. -/
theorem nodup_pids_preserved (pid : Int) (t : List Int) (w : Nat → Int × WStatus)
    (fgOnly : Bool) (fgpid : Int) (h : NoDupPids t) :
    NoDupPids initprocesses ∧
    (NoDupPids (addbg pid t).2 ↔ (pid ∉ occupied t ∨ (-1 : Int) ∉ t)) ∧
    NoDupPids (reap w t).2 ∧
    NoDupPids (drain t).2 ∧
    NoDupPids (exitShell ⟨fgOnly, t, fgpid⟩).2.processes := by
  refine ⟨?_, addbg_nodup_iff pid t h, ?_, ?_, ?_⟩
  · simp [NoDupPids, initprocesses, occupied_replicate]
  · exact List.Nodup.sublist (occupied_reapFrom_sublist w 0 t) h
  · simp [NoDupPids, drain_table, occupied_replicate]
  · simp [NoDupPids, exitShell, drain_table, occupied_replicate]

/-- Instance of C5 on a table of 512 slots with one job: a new PID keeps the
property. -/
theorem nodup_pids_preserved_witness :
    NoDupPids (oneJob 4242) ∧ NoDupPids (addbg 4243 (oneJob 4242)).2 :=
  have h : NoDupPids (oneJob 4242) := by
    simp [NoDupPids, occupied_oneJob]
  ⟨h, (nodup_pids_preserved 4243 (oneJob 4242) (fun _ => (0, WStatus.other)) false (-1) h).2.1.2
    (Or.inl (by simp [occupied_oneJob]))⟩

/-- C5 as stated fails: the table with PID 4242 in slot 0 and 511 empty slots
has no duplicate, and after `addbg 4242` the PID 4242 is in slots 0 and 1. -/
theorem addbg_duplicates_pid :
    NoDupPids (oneJob 4242) ∧
      (addbg 4242 (oneJob 4242)).2[0]? = some 4242 ∧
      (addbg 4242 (oneJob 4242)).2[1]? = some 4242 ∧
      ¬ NoDupPids (addbg 4242 (oneJob 4242)).2 := by
  have h : NoDupPids (oneJob 4242) := by
    simp [NoDupPids, occupied_oneJob]
  refine ⟨h, ?_, ?_, ?_⟩
  · rw [oneJob_eq, addbg_second_slot 4242 4242 _ (by decide)]
    simp only [List.getElem?_cons_zero]
  · rw [oneJob_eq, addbg_second_slot 4242 4242 _ (by decide)]
    simp only [List.getElem?_cons_succ, List.getElem?_cons_zero]
  · rw [addbg_nodup_iff 4242 _ h]
    simp [occupied_oneJob, empty_mem_oneJob]

theorem execCMD_background (cmd : Command) (pid : Int) (wstatus : WStatus) (s : Shell)
    (h1 : pid ≠ -1) (h0 : pid ≠ 0) (hfg : s.fgOnly = false) (hbg : cmd.background = true) :
    execCMD cmd pid wstatus s =
      (0, [Event.printBackgroundPid pid], { s with processes := (addbg pid s.processes).2 }) := by
  simp [execCMD, h1, h0, hfg, hbg]

/-- C4 (as amended): in the original process, with child PID `pid`, when
`fgOnly` is on `execCMD` waits for `pid` first, prints no background-PID line
and leaves every slot as it was, whatever `background` is; when `fgOnly` is off
and `background` is true it only prints the background-PID line, does not wait,
and hands `pid` to `addbg`: the PID is in the table afterwards when a slot was
empty, and the table is unchanged when no slot was empty. -/
theorem execCMD_dispatch (cmd : Command) (pid : Int) (wstatus : WStatus) (s : Shell)
    (hpid : 0 < pid) :
    (s.fgOnly = true →
      (∃ rest, (execCMD cmd pid wstatus s).2.1 = Event.waitBlocking pid :: rest) ∧
      (∀ q, Event.printBackgroundPid q ∉ (execCMD cmd pid wstatus s).2.1) ∧
      (execCMD cmd pid wstatus s).2.2.processes = s.processes) ∧
    (s.fgOnly = false → cmd.background = true →
      (execCMD cmd pid wstatus s).2.1 = [Event.printBackgroundPid pid] ∧
      (execCMD cmd pid wstatus s).2.2.processes = (addbg pid s.processes).2 ∧
      (execCMD cmd pid wstatus s).2.2.fgpid = s.fgpid ∧
      ((-1 : Int) ∈ s.processes → pid ∈ (execCMD cmd pid wstatus s).2.2.processes) ∧
      ((-1 : Int) ∉ s.processes → (execCMD cmd pid wstatus s).2.2.processes = s.processes)) := by
  have h1 : pid ≠ -1 := by omega
  have h0 : pid ≠ 0 := by omega
  constructor
  · intro hfg
    cases wstatus <;> simp [execCMD, h1, h0, hfg]
  · intro hfg hbg
    simp only [execCMD, h1, h0, hfg, hbg, if_false, Bool.not_false, Bool.and_self, if_true,
      true_and]
    constructor
    · intro hmem
      obtain ⟨i, hi, _, hset⟩ := addbg_lowest_empty pid s.processes hmem
      rw [hset]
      have hlt : i < s.processes.length := (List.getElem?_eq_some_iff.1 hi).1
      exact List.mem_iff_getElem?.2 ⟨i, by simp [List.getElem?_set, hlt]⟩
    · intro hfull
      exact addbg_full pid s.processes hfull

/-- Instance of C4 in foreground-only mode on `sleep 5 &` with an empty table:
the launcher waits for the child and the 512 slots stay empty. -/
theorem execCMD_dispatch_witness :
    (∃ rest, (execCMD sleepBackground 4243 (WStatus.exited 0) ⟨true, initprocesses, -1⟩).2.1 =
        Event.waitBlocking 4243 :: rest) ∧
      (execCMD sleepBackground 4243 (WStatus.exited 0) ⟨true, initprocesses, -1⟩).2.2.processes =
        initprocesses :=
  have h := (execCMD_dispatch sleepBackground 4243 (WStatus.exited 0) ⟨true, initprocesses, -1⟩
    (by decide)).1 rfl
  ⟨h.1, h.2.2⟩

/-- C4 as stated fails: with `fgOnly` off, `background` true and all 512 slots
occupied (PIDs 1 to 512), the child PID 4243 is announced and not waited for,
and it is in no slot afterwards: the table is unchanged. -/
theorem execCMD_full_table_not_registered :
    (execCMD sleepBackground 4243 (WStatus.exited 0) ⟨false, fullTable, -1⟩).2.1 =
        [Event.printBackgroundPid 4243] ∧
      (execCMD sleepBackground 4243 (WStatus.exited 0) ⟨false, fullTable, -1⟩).2.2.processes =
        fullTable ∧
      (4243 : Int) ∉ fullTable := by
  rw [execCMD_background sleepBackground 4243 (WStatus.exited 0) ⟨false, fullTable, -1⟩
    (by decide) (by decide) rfl rfl]
  dsimp only
  refine ⟨rfl, ?_, ?_⟩
  · exact addbg_full 4243 fullTable fullTable_no_empty
  · intro h
    obtain ⟨n, hn, e⟩ := List.mem_map.1 h
    have e2 : Int.ofNat (n + 1) = 4243 := e
    have hn2 : n < 512 := List.mem_range.1 hn
    simp at e2
    omega

/-- The `status` line after a normal exit with code `c` is `exit value c` only
for the codes 0 and 1; every other code is shown as a signal. -/
theorem statusBuiltin_exit_code (c : Nat) :
    statusBuiltin (c : Int) = StatusLine.exitValue c ↔ c ≤ 1 := by
  unfold statusBuiltin
  by_cases h : (c : Int) ≠ 0 ∧ (c : Int) ≠ 1
  · rw [if_pos h]
    constructor
    · intro e
      exact absurd e (by simp)
    · intro hc
      omega
  · rw [if_neg h]
    constructor
    · intro _
      omega
    · intro _
      rfl

/-- The `status` line after termination by signal `n` is
`terminated by signal n` for every signal other than 1 (0 is no signal). -/
theorem statusBuiltin_signal (n : Nat) :
    statusBuiltin (n : Int) = StatusLine.terminatedBySignal n ↔ 2 ≤ n := by
  unfold statusBuiltin
  by_cases h : (n : Int) ≠ 0 ∧ (n : Int) ≠ 1
  · rw [if_pos h]
    constructor
    · intro _
      omega
    · intro _
      rfl
  · rw [if_neg h]
    constructor
    · intro e
      exact absurd e (by simp)
    · intro hn
      omega

/-- C3, the code at the failing inputs: a foreground child that exits normally
with code 2 makes `status` print `terminated by signal 2`, the same line as for
a child killed by signal 2; a child killed by signal 1 makes it print
`exit value 1`, the same line as for a child that exits with code 1. -/
theorem status_conflates_exit_and_signal :
    statusBuiltin (execCMD sleepForeground 4243 (WStatus.exited 2) ⟨false, initprocesses, -1⟩).1 =
        StatusLine.terminatedBySignal 2 ∧
      statusBuiltin (execCMD sleepForeground 4243 (WStatus.signaled 2) ⟨false, initprocesses, -1⟩).1 =
        StatusLine.terminatedBySignal 2 ∧
      statusBuiltin (execCMD sleepForeground 4243 (WStatus.signaled 1) ⟨false, initprocesses, -1⟩).1 =
        StatusLine.exitValue 1 ∧
      statusBuiltin (execCMD sleepForeground 4243 (WStatus.exited 1) ⟨false, initprocesses, -1⟩).1 =
        StatusLine.exitValue 1 := by
  refine ⟨?_, ?_, ?_, ?_⟩ <;> decide

/-! ## Claims on parsing -/

theorem parseArgs_fields (n : Nat) : ∀ (ts : List CStr) (cmd : Command), ts.length ≤ n →
    (parseArgs ts cmd).args = cmd.args ++ nonRedirection ts ∧
    (parseArgs ts cmd).name = cmd.name ∧
    (parseArgs ts cmd).background = cmd.background := by
  induction n with
  | zero =>
    intro ts cmd h
    have : ts = [] := List.length_eq_zero.1 (by omega)
    subst this
    simp [parseArgs, nonRedirection]
  | succ n ih =>
    intro ts cmd h
    cases ts with
    | nil => simp [parseArgs, nonRedirection]
    | cons t ts =>
      have hl : ts.length ≤ n := by simpa using h
      by_cases h1 : t = ['<']
      · cases ts with
        | nil => simp [parseArgs, nonRedirection, h1]
        | cons f ts2 =>
          have := ih ts2 { cmd with input_file := some f } (by simp at hl; omega)
          simpa [parseArgs, nonRedirection, h1] using this
      · by_cases h2 : t = ['>']
        · cases ts with
          | nil => simp [parseArgs, nonRedirection, h2]
          | cons f ts2 =>
            have := ih ts2 { cmd with output_file := some f } (by simp at hl; omega)
            simpa [parseArgs, nonRedirection, h2] using this
        · have := ih ts { cmd with args := cmd.args ++ [t] } hl
          have e1 : parseArgs (t :: ts) cmd = parseArgs ts { cmd with args := cmd.args ++ [t] } := by
            rw [parseArgs.eq_def]
            simp [h1, h2]
          have e2 : nonRedirection (t :: ts) = t :: nonRedirection ts := by
            rw [nonRedirection.eq_def]
            simp [h1, h2]
          rw [e1, e2]
          simpa using this

theorem tokensAux_repeatWord (n : Nat) :
    tokensAux [] (repeatWord ['x'] n) = List.replicate n ['x'] := by
  induction n with
  | zero => simp [repeatWord, tokensAux]
  | succ n ih => simp [repeatWord, tokensAux, ih, List.replicate_succ]

theorem nonRedirection_replicate (n : Nat) :
    nonRedirection (List.replicate n ['x']) = List.replicate n ['x'] := by
  induction n with
  | zero => simp [nonRedirection]
  | succ n ih =>
    rw [List.replicate_succ, nonRedirection.eq_def]
    simp [ih]

theorem length_repeatWord (n : Nat) : (repeatWord ['x'] n).length = 2 * n := by
  induction n with
  | zero => simp [repeatWord]
  | succ n ih => simp [repeatWord, ih]; omega

theorem populateCommand_repeatWord (cmd : Command) (n : Nat) :
    (populateCommand cmd (repeatWord ['x'] (n + 1))).args = List.replicate (n + 1) ['x'] := by
  have htok : tokens (repeatWord ['x'] (n + 1)) = ['x'] :: List.replicate n ['x'] := by
    unfold tokens
    rw [tokensAux_repeatWord, List.replicate_succ]
  have hargs := (parseArgs_fields n (List.replicate n ['x'])
    { name := some ['x'], args := [['x']], input_file := none, output_file := none,
      background := false } (by simp)).1
  rw [nonRedirection_replicate] at hargs
  have hlast : (['x'] :: List.replicate n ['x']).getLast? ≠ some ['&'] := by
    intro h
    have hm := List.mem_of_getLast?_eq_some h
    rw [← List.replicate_succ] at hm
    have := (List.mem_replicate.1 hm).2
    simp at this
  simp only [populateCommand, htok]
  have hhead : (repeatWord ['x'] (n + 1)).head? ≠ some '#' := by
    simp [repeatWord]
  rw [if_neg hhead]
  simp only [hargs, List.singleton_append]
  rw [if_neg hlast, hargs]
  simp [List.replicate_succ]

/-- C9, the code at the failing input: the line of 513 words `x`, each
followed by one space, has 1026 characters, and `populateCommand` stores 513
arguments, more than `MAX_ARGS`; the end marker then goes to index 513 of an
array of 513 entries. A line of 1023 such words has 2046 characters and gives
1023 arguments. -/
theorem populateCommand_exceeds_MAX_ARGS :
    ((repeatWord ['x'] 513).length = 1026 ∧
      (populateCommand freshCommand (repeatWord ['x'] 513)).args.length = 513 ∧
      MAX_ARGS < (populateCommand freshCommand (repeatWord ['x'] 513)).args.length) ∧
    ((repeatWord ['x'] 1023).length = 2046 ∧
      (populateCommand freshCommand (repeatWord ['x'] 1023)).args.length = 1023) := by
  have hargs : (populateCommand freshCommand (repeatWord ['x'] 513)).args.length = 513 := by
    rw [populateCommand_repeatWord freshCommand 512, List.length_replicate]
  have hargs2 : (populateCommand freshCommand (repeatWord ['x'] 1023)).args.length = 1023 := by
    rw [populateCommand_repeatWord freshCommand 1022, List.length_replicate]
  refine ⟨⟨length_repeatWord 513, hargs, ?_⟩, length_repeatWord 1023, hargs2⟩
  rw [hargs]
  decide

/-- C2, the code at the failing inputs (interpreter PID 4321): for the line `&`
the descriptor has `name` present (`&`) and an empty argument vector; for the
line `$$` it has `name` equal to `$$` and first argument `4321`. -/
theorem name_differs_from_first_argument :
    expandPID 4321 zeroHeap 2 (populateCommand freshCommand "&".toList) =
        Run.done { name := some "&".toList, args := [], input_file := none,
                   output_file := none, background := true } ∧
      expandPID 4321 zeroHeap 2 (populateCommand freshCommand "$$".toList) =
        Run.done { name := some "$$".toList, args := ["4321".toList], input_file := none,
                   output_file := none, background := false } := by
  decide

/-! ## The token expander on zero-filled blocks -/

theorem ite_plain (P : Char → Prop) (c : Prop) [Decidable c] (a b : Char) (ha : P a)
    (hb : P b) : P (if c then a else b) := by
  split <;> assumption

theorem digitChar_plain (n : Nat) : Nat.digitChar n ≠ '$' ∧ Nat.digitChar n ≠ NUL := by
  unfold Nat.digitChar
  repeat' apply ite_plain (fun c => c ≠ '$' ∧ c ≠ NUL)
  all_goals exact ⟨by decide, by decide⟩

theorem toDigitsCore_plain (fuel : Nat) : ∀ (n : Nat) (ds : List Char),
    (∀ c, c ∈ ds → c ≠ '$' ∧ c ≠ NUL) →
    ∀ c, c ∈ Nat.toDigitsCore 10 fuel n ds → c ≠ '$' ∧ c ≠ NUL := by
  induction fuel with
  | zero =>
    intro n ds h c hc
    exact h c (by simpa [Nat.toDigitsCore] using hc)
  | succ fuel ih =>
    intro n ds h c hc
    have hds : ∀ c, c ∈ Nat.digitChar (n % 10) :: ds → c ≠ '$' ∧ c ≠ NUL := by
      intro x hx
      rcases List.mem_cons.1 hx with e | e
      · rw [e]; exact digitChar_plain _
      · exact h x e
    simp only [Nat.toDigitsCore] at hc
    split_ifs at hc
    · exact hds c hc
    · exact ih _ _ hds c hc

theorem toDigitsCore_ne_nil (fuel n : Nat) (ds : List Char) :
    Nat.toDigitsCore 10 (fuel + 1) n ds ≠ [] := by
  induction fuel generalizing n ds with
  | zero =>
    rw [Nat.toDigitsCore]
    split_ifs
    · simp
    · simp [Nat.toDigitsCore]
  | succ fuel ih =>
    rw [Nat.toDigitsCore]
    split_ifs
    · simp
    · exact ih _ _

theorem toDigits_plain (n : Nat) :
    Nat.toDigits 10 n ≠ [] ∧ ∀ c, c ∈ Nat.toDigits 10 n → c ≠ '$' ∧ c ≠ NUL :=
  ⟨toDigitsCore_ne_nil n n [], toDigitsCore_plain (n + 1) n [] (by simp)⟩

theorem replaceDollars_cons (pid : CStr) (c x : Char) (rest : CStr) (h : ¬ (c = '$' ∧ x = '$')) :
    replaceDollars pid (c :: x :: rest) = c :: replaceDollars pid (x :: rest) := by
  rw [replaceDollars, if_neg h]

theorem replaceDollars_match (pid : CStr) (rest : CStr) :
    replaceDollars pid ('$' :: '$' :: rest) = pid ++ replaceDollars pid rest := by
  rw [replaceDollars, if_pos ⟨rfl, rfl⟩]

theorem startsWith_dollars (c x : Char) (rest : CStr) :
    startsWith (c :: x :: rest) ['$', '$'] = true ↔ c = '$' ∧ x = '$' := by
  simp [startsWith]

theorem strstr_none_unchanged (pid : CStr) (arg : CStr) (h : strstr ['$', '$'] arg = none) :
    replaceDollars pid arg = arg := by
  induction arg with
  | nil => simp [replaceDollars]
  | cons c cs ih =>
    cases cs with
    | nil => simp [replaceDollars]
    | cons x rest =>
      rw [strstr] at h
      by_cases hs : startsWith (c :: x :: rest) ['$', '$'] = true
      · simp [hs] at h
      · simp only [hs, Bool.false_eq_true, if_false, Option.map_eq_none'] at h
        have hcx : ¬ (c = '$' ∧ x = '$') := fun e => hs ((startsWith_dollars c x rest).2 e)
        rw [replaceDollars_cons pid c x rest hcx, ih h]

theorem replaceDollars_plain_append (pid : CStr) (post : CStr) (q : CStr) (hq : q ≠ [])
    (hqp : ∀ c, c ∈ q → c ≠ '$') :
    replaceDollars pid (q ++ post) = q ++ replaceDollars pid post := by
  induction q with
  | nil => exact absurd rfl hq
  | cons d ds ih =>
    have hd : d ≠ '$' := hqp d (by simp)
    cases ds with
    | nil =>
      cases post with
      | nil => simp [replaceDollars]
      | cons e r =>
        have : ¬ (d = '$' ∧ e = '$') := fun h => hd h.1
        simpa using replaceDollars_cons pid d e r this
    | cons d2 r =>
      have : ¬ (d = '$' ∧ d2 = '$') := fun h => hd h.1
      have e := replaceDollars_cons pid d d2 (r ++ post) this
      have ih2 := ih (by simp) (fun c hc => hqp c (by simp [List.mem_cons] at hc ⊢; tauto))
      simp only [List.cons_append] at e ih2 ⊢
      rw [e, ih2]

theorem replaceDollars_cons_head (pid : CStr) (c : Char) (l : CStr) (hl : l ≠ [])
    (h : ¬ (c = '$' ∧ l.head? = some '$')) :
    replaceDollars pid (c :: l) = c :: replaceDollars pid l := by
  cases l with
  | nil => exact absurd rfl hl
  | cons x rest =>
    apply replaceDollars_cons
    intro e
    exact h ⟨e.1, by simp [e.2]⟩

theorem strstr_some_split (arg : CStr) : ∀ (pos : Nat), strstr ['$', '$'] arg = some pos →
    ∃ pre post, arg = pre ++ '$' :: '$' :: post ∧ pre.length = pos ∧
      (∀ (pid : CStr) (x : Char) (rest : CStr), x ≠ '$' →
        replaceDollars pid (pre ++ x :: rest) = pre ++ replaceDollars pid (x :: rest)) ∧
      (∀ (pid : CStr) (rest : CStr),
        replaceDollars pid (pre ++ '$' :: '$' :: rest) = pre ++ pid ++ replaceDollars pid rest) := by
  induction arg with
  | nil => intro pos h; simp [strstr] at h
  | cons c cs ih =>
    intro pos h
    rw [strstr] at h
    by_cases hs : startsWith (c :: cs) ['$', '$'] = true
    · rw [if_pos hs] at h
      have hpos : pos = 0 := by simpa using h.symm
      cases cs with
      | nil => simp [startsWith] at hs
      | cons x rest =>
        obtain ⟨hc, hx⟩ := (startsWith_dollars c x rest).1 hs
        subst hc hx hpos
        exact ⟨[], rest, rfl, rfl, fun _ _ _ _ => rfl, fun pid r => by
          simpa using replaceDollars_match pid r⟩
    · rw [if_neg hs] at h
      cases hk : strstr ['$', '$'] cs with
      | none => simp [hk] at h
      | some k =>
        rw [hk] at h
        have hpos : pos = k + 1 := by simpa using h.symm
        obtain ⟨pre, post, hcs, hlen, k1, k2⟩ := ih k hk
        have hhead : ¬ (c = '$' ∧ cs.head? = some '$') := by
          intro e
          apply hs
          cases cs with
          | nil => simp at e
          | cons x rest =>
            exact (startsWith_dollars c x rest).2 ⟨e.1, by simpa using e.2⟩
        refine ⟨c :: pre, post, by rw [hcs]; rfl, by simp [hlen, hpos], ?_, ?_⟩
        · intro pid x rest hx
          have hh : ¬ (c = '$' ∧ (pre ++ x :: rest).head? = some '$') := by
            intro e
            cases pre with
            | nil => exact hx (by simpa using e.2)
            | cons p ps =>
              apply hhead
              rw [hcs]
              exact ⟨e.1, by simpa using e.2⟩
          rw [List.cons_append, replaceDollars_cons_head pid c _ (by simp) hh, k1 pid x rest hx]
          simp
        · intro pid rest
          have hh : ¬ (c = '$' ∧ (pre ++ '$' :: '$' :: rest).head? = some '$') := by
            intro e
            apply hhead
            rw [hcs]
            cases pre with
            | nil => exact ⟨e.1, by simp⟩
            | cons p ps => exact ⟨e.1, by simpa using e.2⟩
          rw [List.cons_append, replaceDollars_cons_head pid c _ (by simp) hh, k2 pid rest]
          simp

/-- One pass of the loop keeps the text that full replacement gives: replacing
the first `$$` by a PID text that has no `$` commutes with `replaceDollars`. -/
theorem replaceDollars_first_pass (pid : CStr) (hne : pid ≠ []) (hplain : ∀ c, c ∈ pid → c ≠ '$')
    (pre post : CStr)
    (k1 : ∀ (x : Char) (rest : CStr), x ≠ '$' →
      replaceDollars pid (pre ++ x :: rest) = pre ++ replaceDollars pid (x :: rest))
    (k2 : replaceDollars pid (pre ++ '$' :: '$' :: post) = pre ++ pid ++ replaceDollars pid post) :
    replaceDollars pid (pre ++ pid ++ post) = replaceDollars pid (pre ++ '$' :: '$' :: post) := by
  rw [k2]
  cases pid with
  | nil => exact absurd rfl hne
  | cons d ds =>
    have hd : d ≠ '$' := hplain d (by simp)
    have e : pre ++ d :: ds ++ post = pre ++ d :: (ds ++ post) := by simp
    rw [e, k1 d (ds ++ post) hd]
    have := replaceDollars_plain_append (d :: ds) post (d :: ds) (by simp) hplain
    simp only [List.cons_append] at this
    rw [this]
    simp

theorem malloc_zeroHeap (a n : Nat) : malloc zeroHeap a n = List.replicate n NUL := by
  unfold malloc zeroHeap
  induction n with
  | zero => rfl
  | succ n ih => rw [List.range_succ, List.map_append, ih, List.replicate_succ']; rfl

theorem strlen_append_nul (s rest : List Char) (hs : ∀ c, c ∈ s → c ≠ NUL) :
    strlen (s ++ NUL :: rest) = some s.length := by
  induction s with
  | nil => simp [strlen]
  | cons c cs ih =>
    have hc : c ≠ NUL := hs c (by simp)
    have := ih (fun x hx => hs x (by simp [hx]))
    simp [strlen, hc, this]

theorem strncpy_zero_block (pre more : CStr) (n : Nat) (h : pre.length ≤ n) :
    strncpy (List.replicate n NUL) (pre ++ more) pre.length =
      some (pre ++ List.replicate (n - pre.length) NUL) := by
  unfold strncpy
  rw [if_pos (by simpa using h)]
  simp

theorem strcat_zero_tail (s src : CStr) (m : Nat) (hs : ∀ c, c ∈ s → c ≠ NUL)
    (hm : src.length + 1 ≤ m) :
    strcat (s ++ List.replicate m NUL) src = some (s ++ src ++ List.replicate (m - src.length) NUL) := by
  obtain ⟨k, rfl⟩ : ∃ k, m = k + 1 := ⟨m - 1, by omega⟩
  unfold strcat
  rw [List.replicate_succ, strlen_append_nul s _ hs]
  simp only
  rw [if_pos (by simp; omega)]
  have e1 : (s ++ NUL :: List.replicate k NUL).take s.length = s := by simp
  have e2 : (s ++ NUL :: List.replicate k NUL).drop (s.length + src.length + 1) =
      List.replicate (k - src.length) NUL := by
    rw [Nat.add_assoc, ← List.drop_drop]
    simp
  rw [e1, e2]
  have e3 : k + 1 - src.length = (k - src.length) + 1 := by omega
  rw [e3, List.replicate_succ]

theorem cstr_append_nul (x rest : List Char) (hx : ∀ c, c ∈ x → c ≠ NUL) :
    cstr (x ++ NUL :: rest) = x := by
  unfold cstr
  induction x with
  | nil => simp [List.takeWhile]
  | cons c cs ih =>
    have hc : c ≠ NUL := hx c (by simp)
    have := ih (fun y hy => hx y (by simp [hy]))
    simpa [List.takeWhile, hc] using this

/-- On zero-filled blocks one pass of the loop body turns `pre ++ "$$" ++ post`
into `pre ++ pid ++ post`. -/
theorem expandArg_body_zeroHeap (pid pre post : CStr) (a : Nat)
    (hpid : ∀ c, c ∈ pid → c ≠ NUL) (hpre : ∀ c, c ∈ pre → c ≠ NUL)
    (hpost : ∀ c, c ∈ post → c ≠ NUL) :
    ∃ b1 b2 b3,
      strncpy (malloc zeroHeap a ((pre ++ '$' :: '$' :: post).length + pid.length - 2 + 1))
        (pre ++ '$' :: '$' :: post) pre.length = some b1 ∧
      strcat b1 pid = some b2 ∧
      strcat b2 ((pre ++ '$' :: '$' :: post).drop (pre.length + 2)) = some b3 ∧
      cstr b3 = pre ++ pid ++ post := by
  have hlen : (pre ++ '$' :: '$' :: post).length + pid.length - 2 + 1 =
      pre.length + (pid.length + post.length + 1) := by
    simp; omega
  have hdrop : (pre ++ '$' :: '$' :: post).drop (pre.length + 2) = post := by
    rw [← List.drop_drop]
    simp
  rw [hlen, hdrop, malloc_zeroHeap]
  have hpp : ∀ c, c ∈ pre ++ pid → c ≠ NUL := by
    intro c hc
    rcases List.mem_append.1 hc with h | h
    · exact hpre c h
    · exact hpid c h
  have hppp : ∀ c, c ∈ pre ++ pid ++ post → c ≠ NUL := by
    intro c hc
    rcases List.mem_append.1 hc with h | h
    · exact hpp c h
    · exact hpost c h
  have s1 := strncpy_zero_block pre ('$' :: '$' :: post)
    (pre.length + (pid.length + post.length + 1)) (by omega)
  rw [Nat.add_sub_cancel_left] at s1
  have s2 := strcat_zero_tail pre pid (pid.length + post.length + 1) hpre (by omega)
  have e : pid.length + post.length + 1 - pid.length = post.length + 1 := by omega
  rw [e] at s2
  have s3 := strcat_zero_tail (pre ++ pid) post (post.length + 1) hpp (by omega)
  have e2 : post.length + 1 - post.length = 1 := by omega
  rw [e2] at s3
  exact ⟨_, _, _, s1, s2, s3, cstr_append_nul _ [] hppp⟩

theorem expandArg_zeroHeap (pid : CStr) (hne : pid ≠ [])
    (hplain : ∀ c, c ∈ pid → c ≠ '$' ∧ c ≠ NUL) :
    ∀ (fuel a : Nat) (arg : CStr), (∀ c, c ∈ arg → c ≠ NUL) → arg.count '$' < fuel →
      ∃ a2, expandArg pid zeroHeap fuel a arg = Run.done (replaceDollars pid arg, a2) := by
  intro fuel
  induction fuel with
  | zero => intro a arg _ h; omega
  | succ fuel ih =>
    intro a arg hnul hcount
    rw [expandArg]
    cases hstr : strstr ['$', '$'] arg with
    | none =>
      exact ⟨a, by simp only [strstr_none_unchanged pid arg hstr]⟩
    | some pos =>
      obtain ⟨pre, post, harg, hlen, k1, k2⟩ := strstr_some_split arg pos hstr
      subst harg hlen
      have hpre : ∀ c, c ∈ pre → c ≠ NUL := fun c hc => hnul c (by simp [hc])
      have hpost : ∀ c, c ∈ post → c ≠ NUL := fun c hc => hnul c (by simp [hc])
      have hpidn : ∀ c, c ∈ pid → c ≠ NUL := fun c hc => (hplain c hc).2
      have hpidd : ∀ c, c ∈ pid → c ≠ '$' := fun c hc => (hplain c hc).1
      obtain ⟨b1, b2, b3, s1, s2, s3, s4⟩ := expandArg_body_zeroHeap pid pre post a hpidn hpre hpost
      simp only [s1, s2, s3, s4]
      have hnew : ∀ c, c ∈ pre ++ pid ++ post → c ≠ NUL := by
        intro c hc
        rcases List.mem_append.1 hc with h | h
        · rcases List.mem_append.1 h with h2 | h2
          · exact hpre c h2
          · exact hpidn c h2
        · exact hpost c h
      have hzero : pid.count '$' = 0 := List.count_eq_zero.2 (fun h => hpidd _ h rfl)
      have hc2 : (pre ++ pid ++ post).count '$' < fuel := by
        simp only [List.count_append, List.count_cons_self, hzero] at hcount ⊢
        omega
      obtain ⟨a2, h2⟩ := ih (a + 1) (pre ++ pid ++ post) hnew hc2
      refine ⟨a2, ?_⟩
      rw [h2, replaceDollars_first_pass pid hne hpidd pre post (k1 pid) (k2 pid post)]

theorem expandArg_no_dollars (pid : CStr) (heap : Heap) :
    ∀ (fuel a : Nat) (arg s : CStr) (a2 : Nat),
      expandArg pid heap fuel a arg = Run.done (s, a2) → strstr ['$', '$'] s = none := by
  intro fuel
  induction fuel with
  | zero => intro a arg s a2 h; simp [expandArg] at h
  | succ fuel ih =>
    intro a arg s a2 h
    rw [expandArg] at h
    cases hstr : strstr ['$', '$'] arg with
    | none =>
      simp only [hstr, Run.done.injEq, Prod.mk.injEq] at h
      rw [← h.1]
      exact hstr
    | some pos =>
      simp only [hstr] at h
      split at h
      · simp at h
      · split at h
        · simp at h
        · split at h
          · simp at h
          · exact ih _ _ _ _ h

theorem expandArgs_zeroHeap (pid : CStr) (hne : pid ≠ [])
    (hplain : ∀ c, c ∈ pid → c ≠ '$' ∧ c ≠ NUL) (fuel : Nat) :
    ∀ (args : List CStr) (curArg a : Nat), curArg + args.length ≤ MAX_ARGS →
      (∀ arg, arg ∈ args → (∀ c, c ∈ arg → c ≠ NUL) ∧ arg.length < fuel) →
      ∃ a2, expandArgs pid zeroHeap fuel curArg a args =
        Run.done (args.map (replaceDollars pid), a2) := by
  intro args
  induction args with
  | nil => intro curArg a _ _; exact ⟨a, by simp [expandArgs]⟩
  | cons arg rest ih =>
    intro curArg a hlen hargs
    have hcur : curArg < MAX_ARGS := by simp at hlen; omega
    obtain ⟨hnul, hfuel⟩ := hargs arg (by simp)
    have hcount : arg.count '$' < fuel := Nat.lt_of_le_of_lt (List.count_le_length _ _) hfuel
    obtain ⟨a1, h1⟩ := expandArg_zeroHeap pid hne hplain fuel a arg hnul hcount
    obtain ⟨a2, h2⟩ := ih (curArg + 1) a1 (by simp at hlen; omega)
      (fun x hx => hargs x (by simp [hx]))
    refine ⟨a2, ?_⟩
    rw [expandArgs, if_pos hcur]
    simp only [h1, h2, List.map_cons]

/-- The token expander on zero-filled blocks: for every descriptor with at
most `MAX_ARGS` arguments, every interpreter PID whose decimal text fits the
10-byte buffer, and a loop bound above the length of every argument,
`expandPID` returns, and each argument is the original one with every
left-to-right non-overlapping `$$` replaced by the PID text; no argument holds
`$$` afterwards, an argument without `$$` is unchanged, and `name` is what it
was. -/
theorem expandPID_zeroHeap (getpid fuel : Nat) (cmd : Command)
    (hbuf : (Nat.toDigits 10 getpid).length + 1 ≤ 10)
    (hlen : cmd.args.length ≤ MAX_ARGS)
    (hargs : ∀ arg, arg ∈ cmd.args → (∀ c, c ∈ arg → c ≠ NUL) ∧ arg.length < fuel) :
    expandPID getpid zeroHeap fuel cmd =
        Run.done { cmd with args := cmd.args.map (replaceDollars (Nat.toDigits 10 getpid)) } ∧
      (∀ arg, arg ∈ cmd.args →
        strstr ['$', '$'] (replaceDollars (Nat.toDigits 10 getpid) arg) = none) ∧
      (∀ arg, arg ∈ cmd.args → strstr ['$', '$'] arg = none →
        replaceDollars (Nat.toDigits 10 getpid) arg = arg) := by
  obtain ⟨hne, hplain⟩ := toDigits_plain getpid
  refine ⟨?_, ?_, fun arg _ h => strstr_none_unchanged _ arg h⟩
  · obtain ⟨a2, h⟩ := expandArgs_zeroHeap (Nat.toDigits 10 getpid) hne hplain fuel cmd.args 0 0
      (by omega) hargs
    simp only [expandPID, if_pos hbuf, h]
  · intro arg harg
    obtain ⟨hnul, hfuel⟩ := hargs arg harg
    obtain ⟨a2, h⟩ := expandArg_zeroHeap (Nat.toDigits 10 getpid) hne hplain fuel 0 arg hnul
      (Nat.lt_of_le_of_lt (List.count_le_length _ _) hfuel)
    exact expandArg_no_dollars _ _ fuel 0 arg _ a2 h

/-- Instance of the expander theorem: PID 4321 and the arguments of
`echo a$$b$$$`. -/
theorem expandPID_zeroHeap_witness :
    expandPID 4321 zeroHeap 8 { freshCommand with args := ["echo".toList, "a$$b$$$".toList] } =
      Run.done { freshCommand with args := ["echo".toList, "a4321b4321$".toList] } :=
  (expandPID_zeroHeap 4321 8 { freshCommand with args := ["echo".toList, "a$$b$$$".toList] }
    (by decide) (by decide) (by decide)).1

theorem strlen_some (block : List Char) : ∀ (j : Nat), strlen block = some j →
    j < block.length ∧ (∀ c, c ∈ block.take j → c ≠ NUL) ∧
      block = block.take j ++ NUL :: block.drop (j + 1) := by
  induction block with
  | nil => intro j h; simp [strlen] at h
  | cons c cs ih =>
    intro j h
    rw [strlen] at h
    by_cases hc : c = NUL
    · rw [if_pos hc] at h
      have hj : j = 0 := by simpa using h.symm
      subst hj
      simp [hc]
    · rw [if_neg hc] at h
      cases hk : strlen cs with
      | none => simp [hk] at h
      | some k =>
        rw [hk] at h
        have hj : j = k + 1 := by simpa using h.symm
        subst hj
        obtain ⟨h1, h2, h3⟩ := ih k hk
        refine ⟨by simpa using h1, ?_, ?_⟩
        · intro x hx
          rcases List.mem_cons.1 (by simpa using hx) with e | e
          · rw [e]; exact hc
          · exact h2 x e
        · simpa using h3

theorem strlen_plain_append (s rest : List Char) (hs : ∀ c, c ∈ s → c ≠ NUL) :
    ∀ (j : Nat), strlen (s ++ rest) = some j → s.length ≤ j := by
  induction s with
  | nil => intro j _; simp
  | cons c cs ih =>
    intro j h
    have hc : c ≠ NUL := hs c (by simp)
    rw [List.cons_append, strlen, if_neg hc] at h
    cases hk : strlen (cs ++ rest) with
    | none => simp [hk] at h
    | some k =>
      rw [hk] at h
      have hj : j = k + 1 := by simpa using h.symm
      have := ih (fun x hx => hs x (by simp [hx])) k hk
      simp only [List.length_cons]
      omega

/-- When the byte of the fresh block at the offset of the match is not NUL, the
loop body leaves defined behaviour: the second `strcat` (or already the first,
or the scan for a NUL) goes past the end of the block. -/
theorem expandArg_dirty_block (pid pre post : CStr) (heap : Heap) (fuel a : Nat)
    (hstr : strstr ['$', '$'] (pre ++ '$' :: '$' :: post) = some pre.length)
    (hpid : ∀ c, c ∈ pid → c ≠ NUL) (hpre : ∀ c, c ∈ pre → c ≠ NUL)
    (hdirty : heap a pre.length ≠ NUL) :
    expandArg pid heap (fuel + 1) a (pre ++ '$' :: '$' :: post) = Run.undefinedBehaviour := by
  rw [expandArg]
  simp only [hstr]
  have hsize : (pre ++ '$' :: '$' :: post).length + pid.length - 2 + 1 =
      pre.length + (pid.length + post.length + 1) := by
    simp; omega
  have hblock : (malloc heap a ((pre ++ '$' :: '$' :: post).length + pid.length - 2 + 1)).length =
      pre.length + (pid.length + post.length + 1) := by
    simp only [malloc, List.length_map, List.length_range]
    exact hsize
  have hdrop : (malloc heap a ((pre ++ '$' :: '$' :: post).length + pid.length - 2 + 1)).drop
      pre.length = heap a pre.length ::
        (malloc heap a ((pre ++ '$' :: '$' :: post).length + pid.length - 2 + 1)).drop
          (pre.length + 1) := by
    rw [hsize]
    unfold malloc
    rw [← List.map_drop, ← List.map_drop, List.drop_eq_getElem_cons (by simp)]
    simp
  have hcopy : strncpy (malloc heap a ((pre ++ '$' :: '$' :: post).length + pid.length - 2 + 1))
      (pre ++ '$' :: '$' :: post) pre.length =
      some ((pre ++ [heap a pre.length]) ++
        (malloc heap a ((pre ++ '$' :: '$' :: post).length + pid.length - 2 + 1)).drop
          (pre.length + 1)) := by
    unfold strncpy
    rw [if_pos (by rw [hblock]; omega), hdrop]
    simp
  rw [hcopy]
  simp only
  generalize hb1 : (pre ++ [heap a pre.length]) ++
    (malloc heap a ((pre ++ '$' :: '$' :: post).length + pid.length - 2 + 1)).drop
      (pre.length + 1) = b1
  have hb1len : b1.length = pre.length + (pid.length + post.length + 1) := by
    rw [← hb1, List.length_append, List.length_append, List.length_drop, hblock,
      List.length_singleton]
    omega
  have hhead : ∀ c, c ∈ pre ++ [heap a pre.length] → c ≠ NUL := by
    intro c hc
    rcases List.mem_append.1 hc with h | h
    · exact hpre c h
    · rw [List.mem_singleton.1 h]; exact hdirty
  unfold strcat
  cases hj : strlen b1 with
  | none => rfl
  | some j =>
    have hge : pre.length + 1 ≤ j := by
      have := strlen_plain_append _ _ hhead j (by rw [hb1]; exact hj)
      simpa using this
    obtain ⟨_, htake, _⟩ := strlen_some b1 j hj
    simp only
    split_ifs with hfit
    · have hlen2 : strlen (b1.take j ++ pid ++ NUL :: b1.drop (j + pid.length + 1)) =
          some (j + pid.length) := by
        have := strlen_append_nul (b1.take j ++ pid) (b1.drop (j + pid.length + 1))
          (fun c hc => by
            rcases List.mem_append.1 hc with h | h
            · exact htake c h
            · exact hpid c h)
        rw [this]
        simp only [List.length_append, List.length_take]
        congr 1
        omega
      simp only [hlen2]
      rw [if_neg]
      simp only [List.length_append, List.length_take, List.length_cons, List.length_drop,
        hb1len]
      omega
    · rfl

/-! ## Claims on the token expander -/

/-- C1, the code at the failing input (interpreter PID 4321, line
`echo hello $$ &`): when the block `malloc` returns for the new string does not
start with a NUL, `strncpy` copies no byte, `strcat` appends after the first
NUL it finds and the write leaves the block, for any bound on the loop; with
zero-filled blocks the argument becomes `4321`. -/
theorem expandPID_reads_uninitialised_block (fuel : Nat) :
    expandPID 4321 recycledHeap (fuel + 1)
        (populateCommand freshCommand "echo hello $$ &".toList) = Run.undefinedBehaviour ∧
      expandPID 4321 zeroHeap 2 (populateCommand freshCommand "echo hello $$ &".toList) =
        Run.done { name := some "echo".toList,
                   args := ["echo".toList, "hello".toList, "4321".toList],
                   input_file := none, output_file := none, background := true } := by
  constructor
  · rfl
  · decide

end SmallShell
